import Mathlib

/-!
Verification of the typing-practice core of `src/main.py`
(`TypingTutorOverlayApp`).  The per-character state the GUI keeps in the
Tk text widget (displayed glyph, faint highlight tag, "incorrect" tag) is
embedded as an explicit list of cells; `handle_keypress` is translated
branch by branch from the source.
-/

namespace JustType

/-- One character slot of the text widget: the glyph currently displayed
at that offset, whether a faint highlight tag is on it (untyped look), and
whether the "incorrect" feedback tag is on it. -/
structure CellState where
  displayed : Char
  faint : Bool
  incorrect : Bool
  deriving Repr, DecidableEq

/-- Session state of `TypingTutorOverlayApp`: `target_text_content`,
`current_pos`, and the per-offset cells of the widget (one per target
character). -/
structure TutorState where
  target_text_content : List Char
  current_pos : Nat
  cells : List CellState
  deriving Repr, DecidableEq

/-- A key press as classified by `handle_keypress`: keysym BackSpace,
keysym Return, keysym Tab, a one-character `event.char`
(the printable check is applied inside the handler, as in the source), or
anything else (arrows, modifiers, function keys, empty `event.char`). -/
inductive KeyEvent where
  | backspace
  | enter
  | tab
  | char (c : Char)
  | other
  deriving Repr, DecidableEq

/-- The outcome abstraction of the Position Tracker in the spec.  The source
always returns the string "break" to Tk; the outcome records which branch
of `handle_keypress` ran: boundary no-ops (`atStart`, `atEnd`), an ignored
key, a retreat (backspace), or an advance with its offset, verdict and the
glyph left on screen. -/
inductive Outcome where
  | atStart
  | atEnd
  | ignored
  | retreated (offset : Nat)
  | advanced (offset : Nat) (correct : Bool) (displayChar : Char)
  deriving Repr, DecidableEq

/-- Models the host predicate `char.isprintable()` (Python) used at line
684 of the source.  Exact on ASCII and Latin-1: codepoints below U+0020,
U+007F–U+00A0 and U+00AD are not printable, the rest of Latin-1 is.
Above that range it treats the common separator/format codepoints
(U+1680, U+2000–U+200F, U+2028–U+202F, U+205F, U+2060–U+2064, U+3000,
U+FEFF) as not printable and everything else as printable. -/
def pyIsPrintable (c : Char) : Bool :=
  let n := c.toNat
  decide (0x20 ≤ n) && decide (n ≠ 0x7F) &&
  (decide (n < 0x80) || decide (0xA0 < n)) &&
  decide (n ≠ 0xAD) && decide (n ≠ 0x1680) &&
  (decide (n < 0x2000) || decide (0x200F < n)) &&
  (decide (n < 0x2028) || decide (0x202F < n)) &&
  decide (n ≠ 0x205F) && decide (n ≠ 0x3000) &&
  (decide (n < 0x2060) || decide (0x2064 < n)) && decide (n ≠ 0xFEFF)

/-- The cell of an untyped offset: the target character itself is shown,
with its faint tag on and no "incorrect" tag — exactly what
`_set_new_target_text` plus `_apply_syntax_highlighting` leave at every
offset, and what the backspace branch restores (it deletes the displayed
character and re-inserts the original with the normal and faint tags). -/
def untypedCell (c : Char) : CellState :=
  { displayed := c, faint := true, incorrect := false }

/-- The common tail of the Enter/Tab/printable branches (source lines
692–722): remove the faint tag at `current_pos`, remove any "incorrect"
tag, display `display_char` (the correct branch ensures the target
character is shown; the incorrect branch shows `display_char` and adds
the "incorrect" tag), and advance `current_pos` by one. -/
def advanceAt (s : TutorState) (is_correct : Bool) (display_char : Char) :
    TutorState × Outcome :=
  ({ s with
      current_pos := s.current_pos + 1,
      cells := s.cells.set s.current_pos
        { displayed := display_char, faint := false, incorrect := !is_correct } },
   Outcome.advanced s.current_pos is_correct display_char)

/-- Translation of `handle_keypress` (source lines 576–737), branch by branch:
line 590 ignores every key while no text is loaded (with `pos = 0 = N`
this coincides with the boundary outcomes); lines 597–644 handle
BackSpace (restore the original character with normal+faint tags, drop
the "incorrect" tag, decrement `current_pos`); line 647 ignores typing
keys once the whole text is typed; lines 675–690 classify Return, Tab and
one-character printable input, ignoring everything else; lines 692–722
apply styling and advance.  The GUI-index bookkeeping (`get_index`,
`mark_set`, `see`) has no effect on this state and is omitted. -/
def handle_keypress (s : TutorState) (e : KeyEvent) : TutorState × Outcome :=
  if s.target_text_content.isEmpty then
    (s, match e with
        | KeyEvent.backspace => Outcome.atStart
        | _ => Outcome.atEnd)
  else
    match e with
    | KeyEvent.backspace =>
      if s.current_pos > 0 then
        let newPos := s.current_pos - 1
        let original_char := s.target_text_content.getD newPos ' '
        ({ s with
            current_pos := newPos,
            cells := s.cells.set newPos (untypedCell original_char) },
         Outcome.retreated newPos)
      else
        (s, Outcome.atStart)
    | e =>
      if s.current_pos < s.target_text_content.length then
        let target_char := s.target_text_content.getD s.current_pos ' '
        match e with
        | KeyEvent.enter =>
          -- correct iff the target character is a newline; a wrong Enter
          -- displays the expected target character (lines 675–678, 712)
          advanceAt s (target_char == '\n') target_char
        | KeyEvent.tab =>
          -- correct iff the target character is a tab; a wrong Tab
          -- displays the expected target character (lines 679–682, 712)
          advanceAt s (target_char == '\t') target_char
        | KeyEvent.char c =>
          if pyIsPrintable c || c == ' ' then
            -- correct iff the typed character equals the target; a wrong
            -- character displays the typed character (lines 684–687, 712)
            advanceAt s (c == target_char) (if c == target_char then target_char else c)
          else
            (s, Outcome.ignored)
        | _ =>
          (s, Outcome.ignored)
      else
        (s, Outcome.atEnd)

/-- State right after `_set_new_target_text` and
`_apply_syntax_highlighting`: `current_pos = 0`, every offset shows its
target character with the faint tag on and no "incorrect" tag. -/
def initState (target : List Char) : TutorState :=
  { target_text_content := target,
    current_pos := 0,
    cells := target.map untypedCell }

/-- The state component of one keypress. -/
def stepState (s : TutorState) (e : KeyEvent) : TutorState :=
  (handle_keypress s e).1

/-- Run a whole event sequence from the freshly loaded state. -/
def run (target : List Char) (events : List KeyEvent) : TutorState :=
  events.foldl stepState (initState target)

/-- The session invariant: the cursor is in `[0, N]`, there is one cell
per target character, and every not-yet-typed offset (at or beyond the
cursor) is in its untyped condition. -/
def Invariant (s : TutorState) : Prop :=
  s.current_pos ≤ s.target_text_content.length ∧
  s.cells.length = s.target_text_content.length ∧
  ∀ i : Nat, s.current_pos ≤ i → i < s.target_text_content.length →
    s.cells.getD i (untypedCell ' ') = untypedCell (s.target_text_content.getD i ' ')

/-- Reading with `List.getD` after `List.set` at the written index. -/
theorem getD_set_self {α : Type} (l : List α) (i : Nat) (v d : α)
    (h : i < l.length) : (l.set i v).getD i d = v := by
  rw [List.getD_eq_getElem _ _ (by simpa using h)]
  simp

/-- Reading with `List.getD` after `List.set` at a different index. -/
theorem getD_set_ne {α : Type} (l : List α) (i j : Nat) (v d : α)
    (hij : i ≠ j) : (l.set i v).getD j d = l.getD j d := by
  rcases Nat.lt_or_ge j l.length with h | h
  · rw [List.getD_eq_getElem _ _ (by simpa using h), List.getD_eq_getElem _ _ h]
    simp [List.getElem_set, hij]
  · rw [List.getD_eq_default _ _ (by simpa using h), List.getD_eq_default _ _ h]

theorem invariant_advanceAt (s : TutorState) (b : Bool) (d : Char)
    (hs : Invariant s) (hlt : s.current_pos < s.target_text_content.length) :
    Invariant (advanceAt s b d).1 := by
  obtain ⟨h1, h2, h3⟩ := hs
  refine ⟨by simpa [advanceAt] using hlt, by simpa [advanceAt] using h2, ?_⟩
  intro i hpos hi
  simp only [advanceAt] at hpos hi ⊢
  rw [getD_set_ne _ _ _ _ _ (by omega)]
  exact h3 i (by omega) hi

theorem invariant_step (s : TutorState) (e : KeyEvent) (hs : Invariant s) :
    Invariant (stepState s e) := by
  obtain ⟨h1, h2, h3⟩ := hs
  unfold stepState handle_keypress
  split
  · exact ⟨h1, h2, h3⟩
  · cases e with
    | backspace =>
      simp only
      split
      · refine ⟨Nat.le_trans (Nat.sub_le _ _) h1, by simpa using h2, ?_⟩
        intro i hpos hi
        simp only at hpos hi ⊢
        rcases Nat.eq_or_lt_of_le hpos with heq | hlt
        · rw [← heq, getD_set_self _ _ _ _ (by omega)]
        · rw [getD_set_ne _ _ _ _ _ (by omega)]
          exact h3 i (by omega) hi
      · exact ⟨h1, h2, h3⟩
    | enter =>
      simp only
      split
      · exact invariant_advanceAt s _ _ ⟨h1, h2, h3⟩ (by assumption)
      · exact ⟨h1, h2, h3⟩
    | tab =>
      simp only
      split
      · exact invariant_advanceAt s _ _ ⟨h1, h2, h3⟩ (by assumption)
      · exact ⟨h1, h2, h3⟩
    | char c =>
      simp only
      split
      · split
        · exact invariant_advanceAt s _ _ ⟨h1, h2, h3⟩ (by assumption)
        · exact ⟨h1, h2, h3⟩
      · exact ⟨h1, h2, h3⟩
    | other =>
      simp only
      split
      · exact ⟨h1, h2, h3⟩
      · exact ⟨h1, h2, h3⟩

theorem invariant_init (target : List Char) : Invariant (initState target) := by
  refine ⟨Nat.zero_le _, by simp [initState], ?_⟩
  intro i _ hi
  simp only [initState] at hi ⊢
  rw [List.getD_eq_getElem _ _ (by simpa using hi),
    List.getD_eq_getElem _ _ (by simpa using hi)]
  simp

theorem invariant_run (target : List Char) (events : List KeyEvent) :
    Invariant (run target events) := by
  suffices h : ∀ (es : List KeyEvent) (s : TutorState), Invariant s →
      Invariant (es.foldl stepState s) by
    exact h events (initState target) (invariant_init target)
  intro es
  induction es with
  | nil => intro s hs; exact hs
  | cons e es ih =>
    intro s hs
    exact ih (stepState s e) (invariant_step s e hs)

/-- Writing back the element already stored at an index leaves a list
unchanged. -/
theorem set_getD_self {α : Type} (l : List α) (i : Nat) (d : α)
    (h : i < l.length) : l.set i (l.getD i d) = l := by
  rw [List.getD_eq_getElem _ _ h]
  apply List.ext_getElem (by simp)
  intro n h1 h2
  rw [List.getElem_set]
  split
  · subst_eqs; rfl
  · rfl

/-- A list with an index strictly below its length is not empty. -/
theorem isEmpty_false_of_lt_length {α : Type} {l : List α} {n : Nat}
    (h : n < l.length) : l.isEmpty = false := by
  cases l with
  | nil => simp at h
  | cons a t => rfl

/-- The handler never replaces the loaded target text. -/
theorem target_stable_step (s : TutorState) (e : KeyEvent) :
    (stepState s e).target_text_content = s.target_text_content := by
  unfold stepState handle_keypress advanceAt
  cases e <;> (repeat' split) <;> rfl

theorem target_stable_run (target : List Char) (events : List KeyEvent) :
    (run target events).target_text_content = target := by
  suffices h : ∀ (es : List KeyEvent) (s : TutorState),
      (es.foldl stepState s).target_text_content = s.target_text_content by
    exact h events (initState target)
  intro es
  induction es with
  | nil => intro s; rfl
  | cons e es ih =>
    intro s
    rw [List.foldl_cons, ih (stepState s e), target_stable_step]

/-- C1: for every target text and every sequence of keystroke events
applied from the freshly loaded state, the cursor position stays within
`[0, N]`.  `current_pos` is carried as a natural number; the only
decrement in the source (the backspace branch) is guarded by
`current_pos > 0`, so the truncating subtraction of the embedding
coincides with Python integer arithmetic on every reachable state. -/
theorem cursor_stays_in_bounds (target : List Char) (events : List KeyEvent) :
    0 ≤ (run target events).current_pos ∧
      (run target events).current_pos ≤ target.length := by
  refine ⟨Nat.zero_le _, ?_⟩
  have h := (invariant_run target events).1
  rwa [target_stable_run] at h

/-- An input event the handler consumes as a typing key: Enter, Tab, or a
one-character event that passes the printable-or-space check of source
line 684. -/
def consumedKey (e : KeyEvent) : Bool :=
  match e with
  | KeyEvent.enter => true
  | KeyEvent.tab => true
  | KeyEvent.char c => pyIsPrintable c || c == ' '
  | _ => false

theorem advanceAt_backspace (s : TutorState) (b : Bool) (d : Char)
    (hs : Invariant s) (hlt : s.current_pos < s.target_text_content.length) :
    handle_keypress (advanceAt s b d).1 KeyEvent.backspace
      = (s, Outcome.retreated s.current_pos) := by
  obtain ⟨h1, h2, h3⟩ := hs
  have hne : s.target_text_content.isEmpty = false := isEmpty_false_of_lt_length hlt
  have hcell : untypedCell (s.target_text_content.getD s.current_pos ' ')
      = s.cells.getD s.current_pos (untypedCell ' ') :=
    (h3 s.current_pos (Nat.le_refl _) hlt).symm
  simp only [advanceAt, handle_keypress, hne, Bool.false_eq_true, if_false,
    Nat.add_sub_cancel, if_pos (Nat.succ_pos s.current_pos), List.set_set]
  rw [hcell, set_getD_self _ _ _ (by omega)]

/-- C2: from any reachable state with `pos < N`, a consumed keystroke
(Enter, Tab, or a printable character — correct or not) followed
immediately by backspace restores the exact pre-advance state: the cursor
is back at its old value and the offset is untyped again, with no record
of the verdict (the backspace branch removes the "incorrect" tag and
re-inserts the original character with its normal and faint tags). -/
theorem advance_then_retreat_roundtrip (s : TutorState) (e : KeyEvent)
    (hs : Invariant s) (hlt : s.current_pos < s.target_text_content.length)
    (hc : consumedKey e = true) :
    handle_keypress (handle_keypress s e).1 KeyEvent.backspace
      = (s, Outcome.retreated s.current_pos) := by
  have hne : s.target_text_content.isEmpty = false := isEmpty_false_of_lt_length hlt
  have hstep : ∃ b d, (handle_keypress s e).1 = (advanceAt s b d).1 := by
    cases e with
    | enter =>
      refine ⟨s.target_text_content.getD s.current_pos ' ' == '\n',
        s.target_text_content.getD s.current_pos ' ', ?_⟩
      simp [handle_keypress, hne, hlt]
    | tab =>
      refine ⟨s.target_text_content.getD s.current_pos ' ' == '\t',
        s.target_text_content.getD s.current_pos ' ', ?_⟩
      simp [handle_keypress, hne, hlt]
    | char c =>
      simp only [consumedKey] at hc
      refine ⟨c == s.target_text_content.getD s.current_pos ' ',
        if c == s.target_text_content.getD s.current_pos ' ' then
          s.target_text_content.getD s.current_pos ' ' else c, ?_⟩
      simp [handle_keypress, hne, hlt, hc]
    | backspace => exact absurd hc (by simp [consumedKey])
    | other => exact absurd hc (by simp [consumedKey])
  obtain ⟨b, d, hb⟩ := hstep
  rw [hb]
  exact advanceAt_backspace s b d hs hlt

/-- Concrete instance of the round trip: type a correct character on
target "ab" and backspace; the freshly loaded state returns. -/
theorem advance_then_retreat_roundtrip_witness :
    handle_keypress (handle_keypress (initState ['a', 'b']) (KeyEvent.char 'a')).1
        KeyEvent.backspace
      = (initState ['a', 'b'], Outcome.retreated 0) :=
  advance_then_retreat_roundtrip (initState ['a', 'b']) (KeyEvent.char 'a')
    (invariant_init ['a', 'b']) (by decide) (by decide)

theorem handle_keypress_enter_eq (s : TutorState)
    (hlt : s.current_pos < s.target_text_content.length) :
    handle_keypress s KeyEvent.enter
      = advanceAt s (s.target_text_content.getD s.current_pos ' ' == '\n')
          (s.target_text_content.getD s.current_pos ' ') := by
  have hne := isEmpty_false_of_lt_length hlt
  simp [handle_keypress, hne, hlt]

theorem handle_keypress_tab_eq (s : TutorState)
    (hlt : s.current_pos < s.target_text_content.length) :
    handle_keypress s KeyEvent.tab
      = advanceAt s (s.target_text_content.getD s.current_pos ' ' == '\t')
          (s.target_text_content.getD s.current_pos ' ') := by
  have hne := isEmpty_false_of_lt_length hlt
  simp [handle_keypress, hne, hlt]

theorem handle_keypress_char_eq (s : TutorState) (c : Char)
    (hlt : s.current_pos < s.target_text_content.length)
    (hp : (pyIsPrintable c || c == ' ') = true) :
    handle_keypress s (KeyEvent.char c)
      = advanceAt s (c == s.target_text_content.getD s.current_pos ' ')
          (if c == s.target_text_content.getD s.current_pos ' '
            then s.target_text_content.getD s.current_pos ' ' else c) := by
  have hne := isEmpty_false_of_lt_length hlt
  simp [handle_keypress, hne, hlt, hp]

/-- C3: with `pos < N`, a consumed Character event is classified correct
exactly when the typed codepoint equals `TargetText[pos]` (codepoint-exact
equality on `Char`, hence case-sensitive), and the glyph the handler
displays is always the character the user actually typed — in particular,
on a mismatch the display shows the mistake, not the target character. -/
theorem character_advance_correct_iff (s : TutorState) (c : Char)
    (hlt : s.current_pos < s.target_text_content.length)
    (hp : (pyIsPrintable c || c == ' ') = true) :
    ((handle_keypress s (KeyEvent.char c)).2
        = Outcome.advanced s.current_pos true c
      ↔ c = s.target_text_content.getD s.current_pos ' ') ∧
    (c ≠ s.target_text_content.getD s.current_pos ' ' →
      (handle_keypress s (KeyEvent.char c)).2
        = Outcome.advanced s.current_pos false c) := by
  rw [handle_keypress_char_eq s c hlt hp]
  by_cases h : c = s.target_text_content.getD s.current_pos ' '
  · rw [← h]
    simp [advanceAt]
  · have hb : (c == s.target_text_content.getD s.current_pos ' ') = false := by
      simpa using h
    simp [advanceAt, hb, h]
    exact ⟨fun hh => hh.symm, fun hn => ⟨hn, fun hh => hh.symm⟩⟩

/-- A wrong printable character on target "a": the mistake itself is
displayed with verdict `false`; a matching one on target "b" is correct. -/
theorem character_advance_correct_iff_witness :
    (handle_keypress (initState ['a']) (KeyEvent.char 'x')).2
      = Outcome.advanced 0 false 'x' ∧
    (handle_keypress (initState ['b']) (KeyEvent.char 'b')).2
      = Outcome.advanced 0 true 'b' :=
  ⟨(character_advance_correct_iff (initState ['a']) 'x' (by decide) (by decide)).2
      (by decide),
   (character_advance_correct_iff (initState ['b']) 'b' (by decide) (by decide)).1.mpr
      (by decide)⟩

/-- C4: with `pos < N`, Enter is correct exactly when `TargetText[pos]`
is the newline character and Tab exactly when it is the tab character; a
mismatched structural key is consumed as incorrect (the outcome is an
advance carrying verdict `false`, never `ignored`), the cursor still
moves forward by exactly 1, the "incorrect" tag is recorded at the
offset, and the displayed glyph is the expected target character rather
than the literal glyph of the key itself. -/
theorem structural_advance (s : TutorState)
    (hlt : s.current_pos < s.target_text_content.length)
    (hcl : s.current_pos < s.cells.length) :
    (handle_keypress s KeyEvent.enter).2
        = Outcome.advanced s.current_pos
            (s.target_text_content.getD s.current_pos ' ' == '\n')
            (s.target_text_content.getD s.current_pos ' ') ∧
    (handle_keypress s KeyEvent.enter).1.current_pos = s.current_pos + 1 ∧
    (handle_keypress s KeyEvent.enter).1.cells.getD s.current_pos (untypedCell ' ')
        = { displayed := s.target_text_content.getD s.current_pos ' ',
            faint := false,
            incorrect := !(s.target_text_content.getD s.current_pos ' ' == '\n') } ∧
    (handle_keypress s KeyEvent.tab).2
        = Outcome.advanced s.current_pos
            (s.target_text_content.getD s.current_pos ' ' == '\t')
            (s.target_text_content.getD s.current_pos ' ') ∧
    (handle_keypress s KeyEvent.tab).1.current_pos = s.current_pos + 1 ∧
    (handle_keypress s KeyEvent.tab).1.cells.getD s.current_pos (untypedCell ' ')
        = { displayed := s.target_text_content.getD s.current_pos ' ',
            faint := false,
            incorrect := !(s.target_text_content.getD s.current_pos ' ' == '\t') } := by
  rw [handle_keypress_enter_eq s hlt, handle_keypress_tab_eq s hlt]
  exact ⟨rfl, rfl, getD_set_self _ _ _ _ hcl, rfl, rfl, getD_set_self _ _ _ _ hcl⟩

/-- Enter at a position expecting 'a': consumed as incorrect, cursor at
1, and the expected 'a' (not a newline glyph) is displayed. -/
theorem structural_advance_witness :
    (handle_keypress (initState ['a']) KeyEvent.enter).2
        = Outcome.advanced 0 false 'a' ∧
    (handle_keypress (initState ['a']) KeyEvent.enter).1.current_pos = 1 :=
  ⟨by
    have h := (structural_advance (initState ['a']) (by decide) (by decide)).1
    simpa using h,
   (structural_advance (initState ['a']) (by decide) (by decide)).2.1⟩

/-- C5: an Other event (arrows, modifiers, function keys, empty
`event.char`) and a Character event whose value fails the
printable-or-space test are both consumed with zero side effects: the
whole state — cursor, displayed glyphs, and every tag — is returned
unchanged. -/
theorem ignored_zero_side_effects (s : TutorState) (c : Char)
    (hnp : pyIsPrintable c = false) (hsp : c ≠ ' ') :
    (handle_keypress s KeyEvent.other).1 = s ∧
    (handle_keypress s (KeyEvent.char c)).1 = s := by
  by_cases he : s.target_text_content.isEmpty
  · constructor <;> simp [handle_keypress, he]
  · rcases Nat.lt_or_ge s.current_pos s.target_text_content.length with h | h
    · constructor <;> simp [handle_keypress, he, h, hnp, hsp]
    · constructor <;> simp [handle_keypress, he, Nat.not_lt.mpr h]

/-- An arrow-style key and a control character are both side-effect free
mid-session. -/
theorem ignored_zero_side_effects_witness :
    (handle_keypress (initState ['a', 'b']) KeyEvent.other).1
        = initState ['a', 'b'] ∧
    (handle_keypress (initState ['a', 'b']) (KeyEvent.char (Char.ofNat 1))).1
        = initState ['a', 'b'] :=
  ignored_zero_side_effects (initState ['a', 'b']) (Char.ofNat 1)
    (by decide) (by decide)

/-- C6: advancing at `pos == N` and retreating at `pos == 0` are defined
no-ops, not errors: the state — cursor and every cell — is returned
untouched with the boundary outcome (`atEnd` / `atStart`), and for an
empty target text every non-backspace key yields `atEnd` and backspace
yields `atStart`, again with no state change, so no display directive is
ever produced. -/
theorem boundary_noops (s : TutorState) (e : KeyEvent) :
    (s.current_pos = s.target_text_content.length → e ≠ KeyEvent.backspace →
      handle_keypress s e = (s, Outcome.atEnd)) ∧
    (s.current_pos = 0 →
      handle_keypress s KeyEvent.backspace = (s, Outcome.atStart)) ∧
    (s.target_text_content = [] → e ≠ KeyEvent.backspace →
      handle_keypress s e = (s, Outcome.atEnd)) ∧
    (s.target_text_content = [] →
      handle_keypress s KeyEvent.backspace = (s, Outcome.atStart)) := by
  refine ⟨?_, ?_, ?_, ?_⟩
  · intro hpos hne
    by_cases he : s.target_text_content.isEmpty
    · cases e with
      | backspace => exact absurd rfl hne
      | enter => simp [handle_keypress, he]
      | tab => simp [handle_keypress, he]
      | char c => simp [handle_keypress, he]
      | other => simp [handle_keypress, he]
    · cases e with
      | backspace => exact absurd rfl hne
      | enter => simp [handle_keypress, he, hpos]
      | tab => simp [handle_keypress, he, hpos]
      | char c => simp [handle_keypress, he, hpos]
      | other => simp [handle_keypress, he, hpos]
  · intro hpos
    by_cases he : s.target_text_content.isEmpty
    · simp [handle_keypress, he]
    · simp [handle_keypress, he, hpos]
  · intro ht _
    cases e with
    | backspace => simp_all
    | enter => simp [handle_keypress, ht]
    | tab => simp [handle_keypress, ht]
    | char c => simp [handle_keypress, ht]
    | other => simp [handle_keypress, ht]
  · intro ht
    simp [handle_keypress, ht]

/-- With the empty target every advance is `atEnd` and backspace is
`atStart`; with "a" fully typed, Enter is `atEnd`; at the start of "a",
backspace is `atStart`. -/
theorem boundary_noops_witness :
    handle_keypress (initState []) (KeyEvent.char 'q') = (initState [], Outcome.atEnd) ∧
    handle_keypress (initState []) KeyEvent.backspace = (initState [], Outcome.atStart) ∧
    handle_keypress (initState ['a']) KeyEvent.backspace
      = (initState ['a'], Outcome.atStart) :=
  ⟨(boundary_noops (initState []) (KeyEvent.char 'q')).2.2.1 rfl (by decide),
   (boundary_noops (initState []) (KeyEvent.char 'q')).2.2.2 rfl,
   (boundary_noops (initState ['a']) (KeyEvent.char 'q')).2.1 rfl⟩

/-- The three-way visual classification of one offset. -/
inductive DisplayClass where
  | correct
  | incorrect
  | untyped
  deriving Repr, DecidableEq

/-- How the tags of a cell render: the fixed error style takes precedence over
everything, the faint tag gives the untyped look, and a cell with neither
shows its full-intensity token colour (the "correct" look). -/
def classifyCell (cell : CellState) : DisplayClass :=
  if cell.incorrect then DisplayClass.incorrect
  else if cell.faint then DisplayClass.untyped
  else DisplayClass.correct

/-- The per-offset pass of `_reapply_faint_and_feedback` (lines 399–434):
all faint and "incorrect" tags have just been stripped, and the loop over
`range(len(target_text_content))` leaves offsets before `current_pos`
bare (full-intensity token colour) and re-adds the faint tag to offsets
at or after it.  `i` is the flat position of the first cell. -/
def reapplyCells (current_pos : Nat) : Nat → List CellState → List CellState
  | _, [] => []
  | i, cell :: rest =>
    (if i < current_pos then { cell with faint := false, incorrect := false }
     else { cell with faint := true, incorrect := false })
      :: reapplyCells current_pos (i + 1) rest

/-- Model of `_reapply_faint_and_feedback`: a no-op without loaded text (line 405),
otherwise the tag pass above over every offset.  Displayed glyphs are not
touched — the function only rewrites tags. -/
def reapply_faint_and_feedback (s : TutorState) : TutorState :=
  if s.target_text_content.isEmpty then s
  else { s with cells := reapplyCells s.current_pos 0 s.cells }

theorem reapplyCells_length (p i : Nat) (l : List CellState) :
    (reapplyCells p i l).length = l.length := by
  induction l generalizing i with
  | nil => rfl
  | cons a t ih => simp [reapplyCells, ih]

theorem reapplyCells_getD (p i j : Nat) (l : List CellState) (d : CellState)
    (hj : j < l.length) :
    (reapplyCells p i l).getD j d
      = (if i + j < p
          then { l.getD j d with faint := false, incorrect := false }
          else { l.getD j d with faint := true, incorrect := false }) := by
  induction l generalizing i j with
  | nil => simp at hj
  | cons a t ih =>
    cases j with
    | zero => simp [reapplyCells]
    | succ n =>
      simp only [reapplyCells, List.getD_cons_succ]
      rw [ih (i + 1) n (by simpa using hj)]
      have harith : i + 1 + n = i + (n + 1) := by omega
      rw [harith]

/-- C7: the full refresh run after a lexical-mode switch classifies every
offset below the cursor as Correct (full-intensity token colour) and
every offset at or beyond it as Untyped (faint), emitting one directive
per offset (the cell list keeps its length), regardless of any
"incorrect" verdict previously recorded below the cursor — prior
incorrect styling is forgotten. -/
theorem full_refresh_classification (s : TutorState) (i : Nat)
    (hlen : s.cells.length = s.target_text_content.length)
    (hi : i < s.target_text_content.length) :
    ((reapply_faint_and_feedback s).cells.length = s.target_text_content.length) ∧
    (i < s.current_pos →
      classifyCell ((reapply_faint_and_feedback s).cells.getD i (untypedCell ' '))
        = DisplayClass.correct) ∧
    (s.current_pos ≤ i →
      classifyCell ((reapply_faint_and_feedback s).cells.getD i (untypedCell ' '))
        = DisplayClass.untyped) := by
  have hne : s.target_text_content.isEmpty = false := isEmpty_false_of_lt_length hi
  have hred : reapply_faint_and_feedback s
      = { s with cells := reapplyCells s.current_pos 0 s.cells } := by
    unfold reapply_faint_and_feedback
    rw [if_neg (by simp [hne])]
  rw [hred]
  refine ⟨by simp [reapplyCells_length, hlen], ?_, ?_⟩
  · intro hlt
    have h := reapplyCells_getD s.current_pos 0 i s.cells (untypedCell ' ')
      (by omega)
    simp only [Nat.zero_add] at h
    rw [h, if_pos hlt]
    simp [classifyCell]
  · intro hge
    have h := reapplyCells_getD s.current_pos 0 i s.cells (untypedCell ' ')
      (by omega)
    simp only [Nat.zero_add] at h
    rw [h, if_neg (Nat.not_lt.mpr hge)]
    simp [classifyCell]

/-- Mid-session refresh on "ab" after a wrong first character: offset 0
is re-shown as Correct even though it was typed incorrectly, offset 1 as
Untyped. -/
theorem full_refresh_classification_witness :
    classifyCell ((reapply_faint_and_feedback
        (run ['a', 'b'] [KeyEvent.char 'x'])).cells.getD 0 (untypedCell ' '))
      = DisplayClass.correct ∧
    classifyCell ((reapply_faint_and_feedback
        (run ['a', 'b'] [KeyEvent.char 'x'])).cells.getD 1 (untypedCell ' '))
      = DisplayClass.untyped :=
  ⟨(full_refresh_classification (run ['a', 'b'] [KeyEvent.char 'x']) 0
      (by decide) (by decide)).2.1 (by decide),
   (full_refresh_classification (run ['a', 'b'] [KeyEvent.char 'x']) 1
      (by decide) (by decide)).2.2 (by decide)⟩

/-- The Python call `text.replace` on the two-character CRLF pattern:
left-to-right, non-overlapping replacement of each CRLF pair by LF. -/
def replaceCRLF : List Char → List Char
  | [] => []
  | [c] => [c]
  | c1 :: c2 :: rest =>
    if c1 = '\r' ∧ c2 = '\n' then '\n' :: replaceCRLF rest
    else c1 :: replaceCRLF (c2 :: rest)

/-- The Python call `text.replace` sending every CR to LF. -/
def replaceCR (l : List Char) : List Char :=
  l.map (fun c => if c = '\r' then '\n' else c)

/-- Line 298 of `_set_new_target_text`: the stored target text is the
raw text with CRLF replaced by LF, then CR replaced by LF. -/
def set_new_target_text (text_content : List Char) : List Char :=
  replaceCR (replaceCRLF text_content)

/-- C8 counterexample: the core is not the identity on raw text — loading
`"a\r\nb"` stores `"a\nb"`, so `_set_new_target_text` itself performs
newline normalization rather than leaving it to the caller. -/
theorem set_new_target_text_not_identity :
    set_new_target_text ['a', '\r', '\n', 'b'] ≠ ['a', '\r', '\n', 'b'] := by
  decide

/-- C8 amended: `_set_new_target_text` normalizes line endings itself —
every CRLF pair and every remaining CR becomes LF, so the stored
TargetText never contains a carriage return, and an input already free of
carriage returns is stored unchanged. -/
theorem set_new_target_text_normalizes (text_content : List Char) :
    '\r' ∉ set_new_target_text text_content ∧
    ('\r' ∉ text_content → set_new_target_text text_content = text_content) := by
  constructor
  · intro hmem
    simp only [set_new_target_text, replaceCR, List.mem_map] at hmem
    obtain ⟨c, _, hc⟩ := hmem
    by_cases h : c = '\r' <;> simp [h] at hc
  · intro hno
    have hfix : ∀ n (l : List Char), l.length ≤ n → '\r' ∉ l →
        replaceCRLF l = l := by
      intro n
      induction n with
      | zero =>
        intro l hl _
        cases l with
        | nil => rfl
        | cons a t => simp at hl
      | succ n ih =>
        intro l hl hnol
        match l with
        | [] => rfl
        | [c] => rfl
        | c1 :: c2 :: rest =>
          have hc1 : c1 ≠ '\r' := fun hh => hnol (by simp [hh])
          rw [replaceCRLF, if_neg (by tauto)]
          have htail : replaceCRLF (c2 :: rest) = c2 :: rest := by
            refine ih (c2 :: rest) ?_ ?_
            · simp only [List.length_cons] at hl ⊢
              omega
            · intro hh
              exact hnol (List.mem_cons_of_mem _ hh)
          rw [htail]
    have h1 : replaceCRLF text_content = text_content :=
      hfix text_content.length text_content (Nat.le_refl _) hno
    have h2 : ∀ l : List Char, '\r' ∉ l → replaceCR l = l := by
      intro l
      induction l with
      | nil => intro _; rfl
      | cons a t ih =>
        intro hl
        have ha : a ≠ '\r' := fun hh => hl (by simp [hh])
        have ht := ih (fun hh => hl (List.mem_cons_of_mem _ hh))
        simp only [replaceCR, List.map_cons] at ht ⊢
        rw [if_neg ha, ht]
    rw [set_new_target_text, h1, h2 text_content hno]

/-- Normalization on a CRLF input and identity on a CR-free input. -/
theorem set_new_target_text_normalizes_witness :
    '\r' ∉ set_new_target_text ['a', '\r', '\n', 'b'] ∧
    set_new_target_text ['x', '\n', 'y'] = ['x', '\n', 'y'] :=
  ⟨(set_new_target_text_normalizes ['a', '\r', '\n', 'b']).1,
   (set_new_target_text_normalizes ['x', '\n', 'y']).2 (by decide)⟩

/-- One entry of `self.token_map`:
`{"start": int, "end": int (exclusive), "type": token}`.  The dictionary
key `end` is a reserved word here and is called `stop`; the Pygments
token type is kept as an opaque identifier (the core only compares
types, never inspects them). -/
structure TokenSpan where
  start : Nat
  stop : Nat
  type : Nat
  deriving Repr, DecidableEq

/-- The `token_map` loop of `_apply_syntax_highlighting` (lines 368–397),
restricted to its flat-position bookkeeping: starting at
`current_char_pos`, each lexed `(token_type, value)` pair appends the
span `[current, current + len(value))` and advances the counter by
`len(value)`. -/
def buildTokenMapFrom (current_char_pos : Nat) :
    List (Nat × List Char) → List TokenSpan
  | [] => []
  | (token_type, value) :: rest =>
    { start := current_char_pos,
      stop := current_char_pos + value.length,
      type := token_type }
      :: buildTokenMapFrom (current_char_pos + value.length) rest

/-- The attribute `self.token_map` as rebuilt from the lexer stream of
`(token_type, value)` pairs, positions counted from 0. -/
def token_map (lexed : List (Nat × List Char)) : List TokenSpan :=
  buildTokenMapFrom 0 lexed

/-- Total length of the lexed values (Pygments yields the input text,
token by token, so this is `N`). -/
def lexedLength (lexed : List (Nat × List Char)) : Nat :=
  (lexed.map (fun t => t.2.length)).sum

theorem buildTokenMapFrom_bounds (cur : Nat) (lexed : List (Nat × List Char)) :
    ∀ sp ∈ buildTokenMapFrom cur lexed,
      cur ≤ sp.start ∧ sp.stop ≤ cur + lexedLength lexed := by
  induction lexed generalizing cur with
  | nil => intro sp hsp; simp [buildTokenMapFrom] at hsp
  | cons t rest ih =>
    intro sp hsp
    simp only [buildTokenMapFrom, List.mem_cons] at hsp
    rcases hsp with h | h
    · subst h
      refine ⟨Nat.le_refl _, ?_⟩
      simp only [lexedLength, List.map_cons, List.sum_cons]
      omega
    · have := ih (cur + t.2.length) sp h
      simp only [lexedLength, List.map_cons, List.sum_cons] at this ⊢
      omega

theorem buildTokenMapFrom_pairwise (cur : Nat) (lexed : List (Nat × List Char)) :
    List.Pairwise (fun a b => a.stop ≤ b.start) (buildTokenMapFrom cur lexed) := by
  induction lexed generalizing cur with
  | nil => exact List.Pairwise.nil
  | cons t rest ih =>
    refine List.Pairwise.cons ?_ (ih (cur + t.2.length))
    intro sp hsp
    exact (buildTokenMapFrom_bounds (cur + t.2.length) rest sp hsp).1

/-- C9: the token map built by `_apply_syntax_highlighting` satisfies the
TokenSpan invariant whenever the lexer yields only non-empty token values
(the Pygments contract): every span has `start < end`; the spans are in
ascending, non-overlapping, contiguous order over `[0, N)` (each span
ends no later than the next begins and within the total text length); and
every offset is covered by at most one span. -/
theorem token_map_invariant (lexed : List (Nat × List Char))
    (hne : ∀ t ∈ lexed, (t.2 : List Char) ≠ []) :
    (∀ sp ∈ token_map lexed, sp.start < sp.stop) ∧
    List.Pairwise (fun a b => a.stop ≤ b.start) (token_map lexed) ∧
    (∀ sp ∈ token_map lexed, sp.stop ≤ lexedLength lexed) ∧
    (∀ off i j : Nat, ∀ hi : i < (token_map lexed).length,
      ∀ hj : j < (token_map lexed).length,
      ((token_map lexed).get ⟨i, hi⟩).start ≤ off →
      off < ((token_map lexed).get ⟨i, hi⟩).stop →
      ((token_map lexed).get ⟨j, hj⟩).start ≤ off →
      off < ((token_map lexed).get ⟨j, hj⟩).stop → i = j) := by
  have hlt : ∀ (cur : Nat) (l : List (Nat × List Char)),
      (∀ t ∈ l, (t.2 : List Char) ≠ []) →
      ∀ sp ∈ buildTokenMapFrom cur l, sp.start < sp.stop := by
    intro cur l hl
    induction l generalizing cur with
    | nil => intro sp hsp; simp [buildTokenMapFrom] at hsp
    | cons t rest ih =>
      intro sp hsp
      simp only [buildTokenMapFrom, List.mem_cons] at hsp
      rcases hsp with h | h
      · subst h
        have : t.2.length ≠ 0 := by
          simpa [List.length_eq_zero] using hl t (List.mem_cons_self t rest)
        simp only
        omega
      · exact ih (cur + t.2.length) (fun u hu => hl u (List.mem_cons_of_mem _ hu)) sp h
  have hpw : List.Pairwise (fun a b => a.stop ≤ b.start) (token_map lexed) :=
    buildTokenMapFrom_pairwise 0 lexed
  refine ⟨hlt 0 lexed hne, hpw, ?_, ?_⟩
  · intro sp hsp
    simpa using (buildTokenMapFrom_bounds 0 lexed sp hsp).2
  · intro off i j hi hj hi1 hi2 hj1 hj2
    rcases Nat.lt_trichotomy i j with hij | hij | hij
    · exfalso
      have hr := List.pairwise_iff_get.mp hpw ⟨i, hi⟩ ⟨j, hj⟩ hij
      omega
    · exact hij
    · exfalso
      have hr := List.pairwise_iff_get.mp hpw ⟨j, hj⟩ ⟨i, hi⟩ hij
      omega

/-- A concrete two-token map: both spans are well-formed and offset 1 is
covered only by the first span. -/
theorem token_map_invariant_witness :
    (∀ sp ∈ token_map [(0, ['a', 'b']), (1, ['c'])], sp.start < sp.stop) ∧
    List.Pairwise (fun a b => a.stop ≤ b.start)
      (token_map [(0, ['a', 'b']), (1, ['c'])]) :=
  ⟨(token_map_invariant [(0, ['a', 'b']), (1, ['c'])] (by decide)).1,
   (token_map_invariant [(0, ['a', 'b']), (1, ['c'])] (by decide)).2.1⟩

/-- C10: at an offset whose target character is unprintable and neither
newline nor tab (e.g. a control character), no key event is ever consumed
as correct: every advance outcome from such a state carries verdict
`false` (Enter matches only newline, Tab only tab, and a matching
Character event would itself fail the printable check), and a Character
event carrying an unprintable, non-space value is ignored outright with
the state unchanged — such an offset can only be advanced past as
incorrect. -/
theorem unprintable_target_never_correct (s : TutorState)
    (hlt : s.current_pos < s.target_text_content.length)
    (hnp : pyIsPrintable (s.target_text_content.getD s.current_pos ' ') = false)
    (hnl : s.target_text_content.getD s.current_pos ' ' ≠ '\n')
    (hnt : s.target_text_content.getD s.current_pos ' ' ≠ '\t') :
    (∀ (e : KeyEvent) (off : Nat) (b : Bool) (d : Char),
      (handle_keypress s e).2 = Outcome.advanced off b d → b = false) ∧
    (∀ c : Char, pyIsPrintable c = false → c ≠ ' ' →
      handle_keypress s (KeyEvent.char c) = (s, Outcome.ignored)) := by
  have hne : s.target_text_content.isEmpty = false := isEmpty_false_of_lt_length hlt
  have hsp : s.target_text_content.getD s.current_pos ' ' ≠ ' ' := by
    intro hh
    rw [hh] at hnp
    exact absurd hnp (by decide)
  constructor
  · intro e off b d h
    cases e with
    | backspace =>
      rw [handle_keypress] at h
      rcases Nat.eq_zero_or_pos s.current_pos with h0 | h0
      · simp [hne, h0] at h
      · simp [hne, h0] at h
    | enter =>
      rw [handle_keypress_enter_eq s hlt] at h
      simp only [advanceAt, Outcome.advanced.injEq] at h
      have hb : (s.target_text_content.getD s.current_pos ' ' == '\n') = false := by
        simpa using hnl
      rwa [h.2.1] at hb
    | tab =>
      rw [handle_keypress_tab_eq s hlt] at h
      simp only [advanceAt, Outcome.advanced.injEq] at h
      have hb : (s.target_text_content.getD s.current_pos ' ' == '\t') = false := by
        simpa using hnt
      rwa [h.2.1] at hb
    | char c =>
      by_cases hp : (pyIsPrintable c || c == ' ') = true
      · rw [handle_keypress_char_eq s c hlt hp] at h
        simp only [advanceAt, Outcome.advanced.injEq] at h
        have hb : (c == s.target_text_content.getD s.current_pos ' ') = false := by
          simp only [beq_eq_false_iff_ne, ne_eq]
          intro hh
          rw [hh] at hp
          simp only [hnp, Bool.false_or] at hp
          exact hsp (by simpa using hp)
        rwa [h.2.1] at hb
      · simp [handle_keypress, hne, hlt, hp] at h
    | other =>
      simp [handle_keypress, hne, hlt] at h
  · intro c hcp hcs
    have hne' := hne
    rcases Nat.lt_or_ge s.current_pos s.target_text_content.length with hl | hl
    · simp [handle_keypress, hne, hl, hcp, hcs]
    · omega

/-- A control-character target: a Character event with another control
character is ignored with no state change. -/
theorem unprintable_target_never_correct_witness :
    handle_keypress (initState [Char.ofNat 1]) (KeyEvent.char (Char.ofNat 2))
      = (initState [Char.ofNat 1], Outcome.ignored) :=
  (unprintable_target_never_correct (initState [Char.ofNat 1]) (by decide)
      (by decide) (by decide) (by decide)).2 (Char.ofNat 2) (by decide) (by decide)

end JustType
